import Mathlib

/- Verification of the HailoRT Ethernet frame-transport layer and POSIX
   filesystem helpers. The eth_stream.hpp header declares the stream
   classes; the write/read loop bodies live in a translation unit that is
   not part of this tree, so those operations are modelled from the
   design specification (marked `Modelled from the spec:` below). The
   filesystem operations are embedded directly from
   common/os/posix/filesystem.cpp. -/

namespace hailort

/-- A byte of frame data; content is opaque to the transport. -/
abbrev Byte := Nat

/-- Modelled from the spec: the MTU-bound cap on a UDP datagram body
(`MAX_UDP_PAYLOAD_SIZE`, declared in eth/udp.hpp which is not in this
tree). The spec's scenarios use the standard Ethernet value 1472. -/
def MAX_UDP_PAYLOAD_SIZE : Nat := 1472

/-- One UDP datagram as produced by the input stream: an optional leading
sync marker (carrying a 32-bit sync index) followed by frame-data bytes. -/
structure Payload where
  marker : Option Nat
  data   : List Byte
deriving Repr, DecidableEq

/-- Modelled from the spec: `eth_stream__write_with_remainder` - split a
frame into payloads of `P` bytes each, the final one holding the
remainder. -/
def splitPayloads (P : Nat) (frame : List Byte) : List (List Byte) :=
  if _h : P = 0 ∨ frame = [] then []
  else frame.take P :: splitPayloads P (frame.drop P)
termination_by frame.length
decreasing_by
  push_neg at _h
  obtain ⟨hP, hf⟩ := _h
  simp only [List.length_drop]
  have : 0 < frame.length := List.length_pos.mpr hf
  omega

/-- The sizes of the payloads a frame of `n` bytes is split into. -/
def payloadSizes (P : Nat) (n : Nat) : List Nat :=
  if _h : P = 0 ∨ n = 0 then []
  else min P n :: payloadSizes P (n - P)
termination_by n
decreasing_by
  push_neg at _h
  omega

/-- Modelled from the spec: `EthernetInputStream::eth_stream__write_all_no_sync`
(declared at eth_stream.hpp:57) - with sync disabled one `write` call
splits the frame into payloads of at most `P` bytes and sends each in
order; the result is the ordered list of datagrams put on the wire. -/
def eth_stream__write_all_no_sync (P : Nat) (frame : List Byte) : List Payload :=
  (splitPayloads P frame).map (fun d => ⟨none, d⟩)

/-- Modelled from the spec: the datagrams of one frame when sync is
enabled. When this frame is due a marker, the first datagram carries a
`SyncMarker` with the current sync index and its data portion shrinks by
`sync_size` bytes (`P - s` data bytes); the rest of the frame is split as
usual. -/
def writeFrameWithSync (P s : Nat) (withMarker : Bool) (syncIndex : Nat)
    (frame : List Byte) : List Payload :=
  if withMarker then
    ⟨some syncIndex, frame.take (P - s)⟩ ::
      (splitPayloads P (frame.drop (P - s))).map (fun d => ⟨none, d⟩)
  else
    (splitPayloads P frame).map (fun d => ⟨none, d⟩)

/-- Modelled from the spec: `EthernetInputStream::eth_stream__write_all_with_sync`
(declared at eth_stream.hpp:58) over a sequence of frames. Every
`fps` frames (frame indices divisible by `frames_per_sync`, starting at
activation) the frame's first payload is prefixed with a marker carrying
the current sync index, which then increments with 32-bit wraparound. -/
def eth_stream__write_all_with_sync (P s fps : Nat) :
    Nat → Nat → List (List Byte) → List Payload
  | _, _, [] => []
  | frameIndex, syncIndex, f :: fs =>
    if frameIndex % fps = 0 then
      writeFrameWithSync P s true (syncIndex % 2 ^ 32) f ++
        eth_stream__write_all_with_sync P s fps (frameIndex + 1) (syncIndex + 1) fs
    else
      writeFrameWithSync P s false syncIndex f ++
        eth_stream__write_all_with_sync P s fps (frameIndex + 1) syncIndex fs

/-- The same stream of datagrams, grouped per frame (frame `k` of the
sequence maps to the list of datagrams sent for it). -/
def framePayloads (P s fps : Nat) : Nat → Nat → List (List Byte) → List (List Payload)
  | _, _, [] => []
  | frameIndex, syncIndex, f :: fs =>
    if frameIndex % fps = 0 then
      writeFrameWithSync P s true (syncIndex % 2 ^ 32) f ::
        framePayloads P s fps (frameIndex + 1) (syncIndex + 1) fs
    else
      writeFrameWithSync P s false syncIndex f ::
        framePayloads P s fps (frameIndex + 1) syncIndex fs

/-- How many of the `n` frames starting at frame index `i` carry a sync
marker. -/
def markedCount (fps : Nat) : Nat → Nat → Nat
  | _, 0 => 0
  | i, n + 1 => (if i % fps = 0 then 1 else 0) + markedCount fps (i + 1) n

/-- The sync indices carried by a datagram list, in wire order. -/
def markersOf (ps : List Payload) : List Nat :=
  ps.filterMap Payload.marker

/-- The frame-data bytes of a datagram list, in wire order (markers
stripped). -/
def dataJoin (ps : List Payload) : List Byte :=
  (ps.map Payload.data).flatten

/-- The wire size of a datagram: `sync_size` bytes of marker when one is
present, plus the data bytes. -/
def datagramSize (sync_size : Nat) (p : Payload) : Nat :=
  (if p.marker.isSome then sync_size else 0) + p.data.length

/-- Modelled from the spec: the software token bucket (`DynamicTokenBucket`,
declared in eth/token_bucket.hpp which is not in this tree). `tokens` is
bounded by the burst capacity. -/
structure DynamicTokenBucket where
  tokens : Nat
deriving Repr, DecidableEq

/-- The token bucket's burst capacity (eth_stream.hpp:102): one MTU. -/
def TokenBucketEthernetInputStream.BURST_SIZE : Nat := MAX_UDP_PAYLOAD_SIZE

/-- The largest single debit (eth_stream.hpp:103): one MTU. -/
def TokenBucketEthernetInputStream.MAX_CONSUME_SIZE : Nat := MAX_UDP_PAYLOAD_SIZE

/-- Modelled from the spec: `throttle(payload_len)` blocks until at least
`payload_len` tokens are available, then debits exactly that many; the
first component is the amount debited by the call. -/
def DynamicTokenBucket.throttle (tb : DynamicTokenBucket) (payload_len : Nat) :
    Nat × DynamicTokenBucket :=
  (payload_len, ⟨tb.tokens - payload_len⟩)

/-- What the output stream can observe on one receive: a datagram, or a
receive timeout. -/
inductive Event where
  | pkt (p : Payload)
  | timeout
deriving Repr, DecidableEq

/-- The output stream's reassembly state (eth_stream.hpp:133-136):
`leftover` holds the bytes received beyond the previous frame
(`leftover_buffer` up to `leftover_size`), plus the last seen sync index
and the timeout flag. -/
structure OutState where
  leftover : List Byte
  last_seen_sync_index : Nat
  encountered_timeout : Bool
deriving Repr, DecidableEq

/-- The receive state as built by the `EthernetOutputStream` constructor
(eth_stream.hpp:144-148): empty leftover, sync-index sentinel at the
maximum unsigned 32-bit value, no timeout encountered. -/
def initOutState : OutState := ⟨[], 2 ^ 32 - 1, false⟩

/-- The last seen sync index after processing a datagram: a marker
overwrites it, a plain datagram leaves it. -/
def updateSyncIndex (ls : Nat) (p : Payload) : Nat :=
  match p.marker with
  | some i => i
  | none => ls

/-- The last seen sync index after a list of datagrams. -/
def lastAfter (ls : Nat) (ps : List Payload) : Nat :=
  ps.foldl updateSyncIndex ls

/-- Modelled from the spec: the receive loop of
`EthernetOutputStream::read_all_with_sync` (declared at
eth_stream.hpp:155). `acc` is the partially assembled frame. Each
datagram's marker is stripped and recorded, its data appended; once `F`
bytes are assembled the frame is returned and the excess becomes the new
leftover. A timeout while partially assembled sets `encountered_timeout`
and discards the partial frame. -/
def readLoopSync (F : Nat) (ls : Nat) (acc : List Byte) :
    List Event → Option (List Byte) × OutState × List Event
  | [] => (none, ⟨[], ls, false⟩, [])
  | Event.timeout :: rest =>
    if acc.isEmpty then (none, ⟨[], ls, false⟩, rest)
    else (none, ⟨[], ls, true⟩, rest)
  | Event.pkt p :: rest =>
    let ls' := updateSyncIndex ls p
    let acc' := acc ++ p.data
    if F ≤ acc'.length then
      (some (acc'.take F), ⟨acc'.drop F, ls', false⟩, rest)
    else
      readLoopSync F ls' acc' rest

/-- Modelled from the spec: the resynchronization scan entered after a
timeout - datagrams without a marker are skipped; the first marker
realigns reassembly, the frame restarting at that datagram's data. -/
def huntSync (F : Nat) (ls : Nat) : List Event → Option (List Byte) × OutState × List Event
  | [] => (none, ⟨[], ls, true⟩, [])
  | Event.timeout :: rest => (none, ⟨[], ls, true⟩, rest)
  | Event.pkt p :: rest =>
    match p.marker with
    | none => huntSync F ls rest
    | some i =>
      let acc := p.data
      if F ≤ acc.length then
        (some (acc.take F), ⟨acc.drop F, i, false⟩, rest)
      else
        readLoopSync F i acc rest

/-- Modelled from the spec: one `read` call of
`EthernetOutputStream::read_all_with_sync`. If a previous receive timed
out, first scan for the next marker; otherwise consume the leftover
first, then receive until the frame buffer is full. -/
def read_all_with_sync (F : Nat) (st : OutState) (evs : List Event) :
    Option (List Byte) × OutState × List Event :=
  if st.encountered_timeout then
    huntSync F st.last_seen_sync_index evs
  else if F ≤ st.leftover.length then
    (some (st.leftover.take F), ⟨st.leftover.drop F, st.last_seen_sync_index, false⟩, evs)
  else
    readLoopSync F st.last_seen_sync_index st.leftover evs

/-- Modelled from the spec: the receive loop of
`EthernetOutputStream::read_all_no_sync` (declared at eth_stream.hpp:156)
- no marker handling; the second component is the new leftover. -/
def readLoopNoSync (F : Nat) (acc : List Byte) :
    List Event → Option (List Byte) × List Byte × List Event
  | [] => (none, [], [])
  | Event.timeout :: rest => (none, [], rest)
  | Event.pkt p :: rest =>
    let acc' := acc ++ p.data
    if F ≤ acc'.length then
      (some (acc'.take F), acc'.drop F, rest)
    else
      readLoopNoSync F acc' rest

/-- Modelled from the spec: one `read` call with sync disabled: consume
the leftover first, then receive until the frame buffer is full. -/
def read_all_no_sync (F : Nat) (leftover : List Byte) (evs : List Event) :
    Option (List Byte) × List Byte × List Event :=
  if F ≤ leftover.length then
    (some (leftover.take F), leftover.drop F, evs)
  else
    readLoopNoSync F leftover evs

/-- Read `n` frames of `F` bytes each with sync disabled, threading the
leftover; `none` as soon as one read fails. -/
def readFramesNoSync (F : Nat) : Nat → List Byte → List Event → Option (List (List Byte))
  | 0, _, _ => some []
  | n + 1, leftover, evs =>
    match read_all_no_sync F leftover evs with
    | (some f, l', rest) => (readFramesNoSync F n l' rest).map (f :: ·)
    | (none, _, _) => none

/-- Read `n` frames of `F` bytes each with sync enabled, threading the
reassembly state; `none` as soon as one read fails. -/
def readFramesWithSync (F : Nat) : Nat → OutState → List Event → Option (List (List Byte))
  | 0, _, _ => some []
  | n + 1, st, evs =>
    match read_all_with_sync F st evs with
    | (some f, st', rest) => (readFramesWithSync F n st' rest).map (f :: ·)
    | (none, _, _) => none

/-- The status codes this development distinguishes. -/
inductive hailo_status where
  | HAILO_SUCCESS
  | HAILO_FILE_OPERATION_FAILURE
  | HAILO_STREAM_ABORTED_BY_USER
deriving Repr, DecidableEq

/-- The per-stream lifecycle state the abort protocol acts on. -/
structure EthStreamState where
  is_stream_activated : Bool
  is_aborted : Bool
deriving Repr, DecidableEq

/-- Modelled from the spec: `EthernetInputStream::abort` (declared at
eth_stream.hpp:80) marks the stream aborted so blocked I/O fails. -/
def EthernetInputStream.abort (st : EthStreamState) : hailo_status × EthStreamState :=
  (.HAILO_SUCCESS, { st with is_aborted := true })

/-- `EthernetInputStream::clear_abort` (eth_stream.hpp:81): the body is
inline in the header - it returns `HAILO_SUCCESS` and touches nothing. -/
def EthernetInputStream.clear_abort (st : EthStreamState) : hailo_status × EthStreamState :=
  (.HAILO_SUCCESS, st)

/-- Modelled from the spec: `EthernetOutputStream::abort` (declared at
eth_stream.hpp:178) marks the stream aborted so blocked I/O fails. -/
def EthernetOutputStream.abort (st : EthStreamState) : hailo_status × EthStreamState :=
  (.HAILO_SUCCESS, { st with is_aborted := true })

/-- `EthernetOutputStream::clear_abort` (eth_stream.hpp:179): the body is
inline in the header - it returns `HAILO_SUCCESS` and touches nothing. -/
def EthernetOutputStream.clear_abort (st : EthStreamState) : hailo_status × EthStreamState :=
  (.HAILO_SUCCESS, st)

/-- A directory entry's type as reported by `readdir`. -/
inductive dirent_type where
  | DT_REG | DT_DIR | DT_LNK | DT_CHR | DT_BLK | DT_FIFO | DT_SOCK | DT_UNKNOWN
deriving Repr, DecidableEq

/-- A directory entry: name and type. -/
structure dirent where
  d_name : String
  d_type : dirent_type
deriving Repr, DecidableEq

/-- `Filesystem::SEPARATOR` (filesystem.cpp:21). -/
def Filesystem.SEPARATOR : String := "/"

/-- `has_suffix` from common/utils: does the string end with the given
suffix. -/
def has_suffix (s su : String) : Bool := s.endsWith su

/-- The while loop of `Filesystem::get_files_in_dir_flat`
(filesystem.cpp:67-74): walk the entries in order, skip every entry whose
type is not `DT_REG`, and append `dir_path_with_sep + name` for the rest. -/
def files_in_dir_loop (dir_path_with_sep : String) :
    List dirent → List String → List String
  | [], files => files
  | entry :: rest, files =>
    if entry.d_type ≠ dirent_type.DT_REG then
      files_in_dir_loop dir_path_with_sep rest files
    else
      files_in_dir_loop dir_path_with_sep rest (files ++ [dir_path_with_sep ++ entry.d_name])

/-- `Filesystem::get_files_in_dir_flat` (filesystem.cpp:59-77), with the
directory's entry list made explicit: append a `/` to the directory path
unless it already ends with one, then collect the regular files. -/
def get_files_in_dir_flat (dir_path : String) (entries : List dirent) : List String :=
  let dir_path_with_sep :=
    if has_suffix dir_path Filesystem.SEPARATOR then dir_path
    else dir_path ++ Filesystem.SEPARATOR
  files_in_dir_loop dir_path_with_sep entries []

/-- The POSIX `EEXIST` errno value. -/
def EEXIST : Nat := 17

/-- The outcome of a `mkdir` call: success, or failure with an errno. -/
inductive mkdir_result where
  | ok
  | error (errno : Nat)
deriving Repr, DecidableEq

/-- `Filesystem::create_directory` (filesystem.cpp:154-159) as a function
of the `mkdir` outcome: success when `mkdir` succeeded or failed with
`EEXIST`, `HAILO_FILE_OPERATION_FAILURE` otherwise. -/
def create_directory (r : mkdir_result) : hailo_status :=
  match r with
  | .ok => .HAILO_SUCCESS
  | .error e => if e = EEXIST then .HAILO_SUCCESS else .HAILO_FILE_OPERATION_FAILURE

/-- POSIX `mkdir` over an explicit set of existing directories: fails
with `EEXIST` when the path already exists, otherwise creates it. -/
def mkdirFs (dirs : List String) (path : String) : mkdir_result × List String :=
  if path ∈ dirs then (.error EEXIST, dirs)
  else (.ok, path :: dirs)

/-- `Filesystem::create_directory` applied to a directory state: run
`mkdir` and map its outcome as the source does. -/
def create_directory_on (dirs : List String) (path : String) :
    hailo_status × List String :=
  let r := mkdirFs dirs path
  (create_directory r.1, r.2)

/-! Splitting lemmas -/

theorem splitPayloads_flatten (P : Nat) (hP : 0 < P) (f : List Byte) :
    (splitPayloads P f).flatten = f := by
  induction f using splitPayloads.induct P with
  | case1 f h =>
    rcases h with h | h
    · omega
    · subst h; simp [splitPayloads]
  | case2 f h ih =>
    rw [splitPayloads]
    simp only [dif_neg h]
    rw [List.flatten_cons, ih, List.take_append_drop]

theorem splitPayloads_map_length (P : Nat) (f : List Byte) :
    (splitPayloads P f).map List.length = payloadSizes P f.length := by
  induction f using splitPayloads.induct P with
  | case1 f h =>
    rw [splitPayloads, payloadSizes]
    rcases h with h | h
    · simp [h]
    · simp [h]
  | case2 f h ih =>
    push_neg at h
    rw [splitPayloads, payloadSizes]
    rw [dif_neg (by push_neg; exact h)]
    rw [dif_neg (by push_neg; exact ⟨h.1, by simpa using h.2⟩)]
    simp only [List.map_cons, List.length_take]
    rw [ih, List.length_drop]

theorem splitPayloads_mem_length (P : Nat) (f : List Byte) :
    ∀ d ∈ splitPayloads P f, d.length ≤ P := by
  induction f using splitPayloads.induct P with
  | case1 f h =>
    intro d hd
    rw [splitPayloads, dif_pos h] at hd
    simp at hd
  | case2 f h ih =>
    intro d hd
    rw [splitPayloads, dif_neg h] at hd
    rcases List.mem_cons.mp hd with hd | hd
    · subst hd; simp [List.length_take]
    · exact ih d hd

theorem splitPayloads_mem_ne_nil (P : Nat) (f : List Byte) :
    ∀ d ∈ splitPayloads P f, d ≠ [] := by
  induction f using splitPayloads.induct P with
  | case1 f h =>
    intro d hd
    rw [splitPayloads, dif_pos h] at hd
    simp at hd
  | case2 f h ih =>
    intro d hd
    push_neg at h
    rw [splitPayloads, dif_neg (by push_neg; exact h)] at hd
    rcases List.mem_cons.mp hd with hd | hd
    · subst hd
      simp only [ne_eq, List.take_eq_nil_iff]
      push_neg
      exact ⟨h.1, h.2⟩
    · exact ih d hd

theorem payloadSizes_eq_nil_iff (P n : Nat) :
    payloadSizes P n = [] ↔ (P = 0 ∨ n = 0) := by
  constructor
  · intro h
    by_contra hc
    rw [payloadSizes, dif_neg hc] at h
    exact List.cons_ne_nil _ _ h
  · intro h
    rw [payloadSizes, dif_pos h]

theorem payloadSizes_sum (P : Nat) (hP : 0 < P) (n : Nat) :
    (payloadSizes P n).sum = n := by
  induction n using payloadSizes.induct P with
  | case1 n h =>
    rcases h with h | h
    · omega
    · subst h; simp [payloadSizes]
  | case2 n h ih =>
    push_neg at h
    rw [payloadSizes, dif_neg (by push_neg; exact h)]
    rw [List.sum_cons, ih]
    omega

theorem payloadSizes_length (P : Nat) (hP : 0 < P) (n : Nat) :
    (payloadSizes P n).length = (n + P - 1) / P := by
  induction n using payloadSizes.induct P with
  | case1 n h =>
    rcases h with h | h
    · omega
    · subst h
      rw [payloadSizes, dif_pos (Or.inr rfl)]
      simp only [List.length_nil]
      exact (Nat.div_eq_of_lt (by omega)).symm
  | case2 n h ih =>
    push_neg at h
    rw [payloadSizes, dif_neg (by push_neg; exact h)]
    rw [List.length_cons, ih]
    rcases Nat.le_total n P with hnP | hnP
    · have h1 : n - P + P - 1 = P - 1 := by omega
      have h4 : n + P - 1 = (n - 1) + P := by omega
      rw [h1, h4, Nat.add_div_right _ hP,
        Nat.div_eq_of_lt (show P - 1 < P by omega),
        Nat.div_eq_of_lt (show n - 1 < P by omega)]
    · have h3 : n - P + P - 1 = n - 1 := by omega
      have h4 : n + P - 1 = (n - 1) + P := by omega
      rw [h3, h4, Nat.add_div_right _ hP]

theorem payloadSizes_getD (P : Nat) (n : Nat) :
    ∀ i, i + 1 < (payloadSizes P n).length → (payloadSizes P n).getD i 0 = P := by
  induction n using payloadSizes.induct P with
  | case1 n h =>
    intro i hi
    rw [payloadSizes, dif_pos h] at hi
    simp at hi
  | case2 n h ih =>
    intro i hi
    push_neg at h
    rw [payloadSizes, dif_neg (by push_neg; exact h)] at hi ⊢
    match i with
    | 0 =>
      simp only [List.getD_cons_zero]
      simp only [List.length_cons] at hi
      have hpos : 0 < (payloadSizes P (n - P)).length := by omega
      have hne : ¬(P = 0 ∨ n - P = 0) := by
        intro hc
        rw [← payloadSizes_eq_nil_iff] at hc
        rw [hc] at hpos
        simp at hpos
      push_neg at hne
      have hPn : P ≤ n := by omega
      exact Nat.min_eq_left hPn
    | i + 1 =>
      simp only [List.getD_cons_succ]
      simp only [List.length_cons] at hi
      exact ih i (by omega)

theorem payloadSizes_mem_bounds (P : Nat) (n : Nat) :
    ∀ d ∈ payloadSizes P n, 0 < d ∧ d ≤ P := by
  induction n using payloadSizes.induct P with
  | case1 n h =>
    intro d hd
    rw [payloadSizes, dif_pos h] at hd
    simp at hd
  | case2 n h ih =>
    intro d hd
    push_neg at h
    rw [payloadSizes, dif_neg (by push_neg; exact h)] at hd
    rcases List.mem_cons.mp hd with hd | hd
    · subst hd
      have h1 := h.1
      have h2 := h.2
      constructor
      · have : 0 < min P n := by
          rcases Nat.le_total P n with hc | hc
          · rw [Nat.min_eq_left hc]; omega
          · rw [Nat.min_eq_right hc]; omega
        exact this
      · exact Nat.min_le_left _ _
    · exact ih d hd

/-! Per-frame coverage of the sync write path -/

theorem dataJoin_cons (p : Payload) (ps : List Payload) :
    dataJoin (p :: ps) = p.data ++ dataJoin ps := by
  simp [dataJoin]

theorem dataJoin_map_none (ds : List (List Byte)) :
    dataJoin (ds.map (fun d => ⟨none, d⟩)) = ds.flatten := by
  simp [dataJoin, List.map_map, Function.comp_def]

theorem dataJoin_writeFrame (P s : Nat) (hP : 0 < P) (b : Bool) (j : Nat)
    (f : List Byte) : dataJoin (writeFrameWithSync P s b j f) = f := by
  cases b with
  | false =>
    rw [writeFrameWithSync, if_neg (by simp)]
    rw [dataJoin_map_none, splitPayloads_flatten P hP]
  | true =>
    rw [writeFrameWithSync, if_pos (by simp)]
    rw [dataJoin_cons, dataJoin_map_none, splitPayloads_flatten P hP,
      List.take_append_drop]

theorem writeFrame_data_ne_nil (P s : Nat) (_hP : 0 < P) (hs : s < P) (b : Bool)
    (j : Nat) (f : List Byte) (hf : f ≠ []) :
    ∀ p ∈ writeFrameWithSync P s b j f, p.data ≠ [] := by
  intro p hp
  cases b with
  | false =>
    rw [writeFrameWithSync, if_neg (by simp)] at hp
    obtain ⟨d, hd, rfl⟩ := List.mem_map.mp hp
    exact splitPayloads_mem_ne_nil P f d hd
  | true =>
    rw [writeFrameWithSync, if_pos (by simp)] at hp
    rcases List.mem_cons.mp hp with hp | hp
    · subst hp
      simp only [ne_eq, List.take_eq_nil_iff]
      push_neg
      exact ⟨by omega, hf⟩
    · obtain ⟨d, hd, rfl⟩ := List.mem_map.mp hp
      exact splitPayloads_mem_ne_nil P _ d hd

theorem dataJoin_length_pos (ps : List Payload) (hps : ps ≠ [])
    (hne : ∀ p ∈ ps, p.data ≠ []) : 0 < (dataJoin ps).length := by
  match ps with
  | [] => exact absurd rfl hps
  | p :: ps =>
    rw [dataJoin_cons]
    have : p.data ≠ [] := hne p (List.mem_cons_self _ _)
    have : 0 < p.data.length := List.length_pos.mpr this
    simp only [List.length_append]
    omega

/-! Exactness of the receive loops on the payloads of one frame -/

theorem readLoopSync_exact (F : Nat) :
    ∀ (ps : List Payload) (evs : List Event) (ls : Nat) (acc : List Byte),
      (∀ p ∈ ps, p.data ≠ []) →
      acc.length < F →
      acc.length + (dataJoin ps).length = F →
      readLoopSync F ls acc (ps.map Event.pkt ++ evs) =
        (some (acc ++ dataJoin ps), ⟨[], lastAfter ls ps, false⟩, evs) := by
  intro ps
  induction ps with
  | nil =>
    intro evs ls acc hne hacc hlen
    simp [dataJoin] at hlen
    omega
  | cons p ps ih =>
    intro evs ls acc hne hacc hlen
    rw [dataJoin_cons] at hlen ⊢
    simp only [List.map_cons, List.cons_append]
    rw [readLoopSync]
    match ps with
    | [] =>
      have hfull : F ≤ (acc ++ p.data).length := by
        simp only [List.length_append]
        simp [dataJoin] at hlen
        omega
      rw [if_pos hfull]
      have hlen' : (acc ++ p.data).length = F := by
        simp only [List.length_append]
        simp [dataJoin] at hlen
        omega
      rw [List.take_of_length_le (le_of_eq hlen'),
        List.drop_eq_nil_of_le (le_of_eq hlen')]
      simp [dataJoin, lastAfter]
    | q :: ps' =>
      have hq : 0 < (dataJoin (q :: ps')).length := by
        apply dataJoin_length_pos
        · exact List.cons_ne_nil _ _
        · intro r hr
          exact hne r (List.mem_cons_of_mem _ hr)
      have hnotfull : ¬ F ≤ (acc ++ p.data).length := by
        simp only [List.length_append] at *
        omega
      rw [if_neg hnotfull]
      rw [ih evs (updateSyncIndex ls p) (acc ++ p.data)
        (fun r hr => hne r (List.mem_cons_of_mem _ hr))
        (by simp only [List.length_append] at *; omega)
        (by simp only [List.length_append] at *; omega)]
      rw [List.append_assoc]
      rfl

theorem read_frame_exact (F P s : Nat) (hF : 0 < F) (hP : 0 < P) (hs : s < P)
    (b : Bool) (j ls : Nat) (f : List Byte) (hf : f.length = F) (evs : List Event) :
    read_all_with_sync F ⟨[], ls, false⟩
        ((writeFrameWithSync P s b j f).map Event.pkt ++ evs) =
      (some f, ⟨[], lastAfter ls (writeFrameWithSync P s b j f), false⟩, evs) := by
  rw [read_all_with_sync]
  simp only [Bool.false_eq_true, if_false, List.length_nil]
  rw [if_neg (by omega : ¬ F ≤ 0)]
  rw [readLoopSync_exact F (writeFrameWithSync P s b j f) evs ls []
    (writeFrame_data_ne_nil P s hP hs b j f
      (by intro hc; rw [hc] at hf; simp at hf; omega))
    (by simpa using hF)
    (by rw [dataJoin_writeFrame P s hP b j f]; simpa using hf)]
  rw [dataJoin_writeFrame P s hP b j f]
  simp

theorem readFrames_writeAll (F P s fps : Nat) (hF : 0 < F) (hP : 0 < P) (hs : s < P) :
    ∀ (fs : List (List Byte)) (i j ls : Nat), (∀ f ∈ fs, f.length = F) →
      readFramesWithSync F fs.length ⟨[], ls, false⟩
        ((eth_stream__write_all_with_sync P s fps i j fs).map Event.pkt) = some fs := by
  intro fs
  induction fs with
  | nil =>
    intro i j ls _
    rfl
  | cons f fs ih =>
    intro i j ls hall
    have hf : f.length = F := hall f (List.mem_cons_self _ _)
    have hall' : ∀ g ∈ fs, g.length = F := fun g hg => hall g (List.mem_cons_of_mem _ hg)
    rw [eth_stream__write_all_with_sync]
    by_cases hi : i % fps = 0
    · rw [if_pos hi, List.map_append]
      show readFramesWithSync F (fs.length + 1) _ _ = _
      rw [readFramesWithSync]
      rw [read_frame_exact F P s hF hP hs true (j % 2 ^ 32) ls f hf]
      simp only []
      rw [ih (i + 1) (j + 1) _ hall']
      rfl
    · rw [if_neg hi, List.map_append]
      show readFramesWithSync F (fs.length + 1) _ _ = _
      rw [readFramesWithSync]
      rw [read_frame_exact F P s hF hP hs false j ls f hf]
      simp only []
      rw [ih (i + 1) j _ hall']
      rfl

theorem readLoopNoSync_exact (F : Nat) :
    ∀ (ps : List Payload) (evs : List Event) (acc : List Byte),
      (∀ p ∈ ps, p.data ≠ []) →
      acc.length < F →
      acc.length + (dataJoin ps).length = F →
      readLoopNoSync F acc (ps.map Event.pkt ++ evs) =
        (some (acc ++ dataJoin ps), [], evs) := by
  intro ps
  induction ps with
  | nil =>
    intro evs acc hne hacc hlen
    simp [dataJoin] at hlen
    omega
  | cons p ps ih =>
    intro evs acc hne hacc hlen
    rw [dataJoin_cons] at hlen ⊢
    simp only [List.map_cons, List.cons_append]
    rw [readLoopNoSync]
    match ps with
    | [] =>
      have hlen' : (acc ++ p.data).length = F := by
        simp only [List.length_append]
        simp [dataJoin] at hlen
        omega
      rw [if_pos (le_of_eq hlen'.symm)]
      rw [List.take_of_length_le (le_of_eq hlen'),
        List.drop_eq_nil_of_le (le_of_eq hlen')]
      simp [dataJoin]
    | q :: ps' =>
      have hq : 0 < (dataJoin (q :: ps')).length := by
        apply dataJoin_length_pos
        · exact List.cons_ne_nil _ _
        · intro r hr
          exact hne r (List.mem_cons_of_mem _ hr)
      have hnotfull : ¬ F ≤ (acc ++ p.data).length := by
        simp only [List.length_append] at *
        omega
      rw [if_neg hnotfull]
      rw [ih evs (acc ++ p.data)
        (fun r hr => hne r (List.mem_cons_of_mem _ hr))
        (by simp only [List.length_append] at *; omega)
        (by simp only [List.length_append] at *; omega)]
      rw [List.append_assoc]

theorem write_no_sync_data_ne_nil (P : Nat) (_hP : 0 < P) (frame : List Byte) :
    ∀ p ∈ eth_stream__write_all_no_sync P frame, p.data ≠ [] := by
  intro p hp
  rw [eth_stream__write_all_no_sync] at hp
  obtain ⟨d, hd, rfl⟩ := List.mem_map.mp hp
  exact splitPayloads_mem_ne_nil P frame d hd

theorem dataJoin_write_no_sync (P : Nat) (hP : 0 < P) (frame : List Byte) :
    dataJoin (eth_stream__write_all_no_sync P frame) = frame := by
  rw [eth_stream__write_all_no_sync, dataJoin_map_none, splitPayloads_flatten P hP]

theorem read_frame_no_sync_exact (F P : Nat) (hF : 0 < F) (hP : 0 < P)
    (f : List Byte) (hf : f.length = F) (evs : List Event) :
    read_all_no_sync F [] ((eth_stream__write_all_no_sync P f).map Event.pkt ++ evs) =
      (some f, [], evs) := by
  rw [read_all_no_sync]
  rw [if_neg (by simp; omega)]
  rw [readLoopNoSync_exact F (eth_stream__write_all_no_sync P f) evs []
    (write_no_sync_data_ne_nil P hP f)
    (by simpa using hF)
    (by rw [dataJoin_write_no_sync P hP f]; simpa using hf)]
  rw [dataJoin_write_no_sync P hP f]
  simp

theorem readFrames_write_no_sync (F P : Nat) (hF : 0 < F) (hP : 0 < P) :
    ∀ (fs : List (List Byte)), (∀ f ∈ fs, f.length = F) →
      readFramesNoSync F fs.length []
        ((fs.map (eth_stream__write_all_no_sync P)).flatten.map Event.pkt) = some fs := by
  intro fs
  induction fs with
  | nil =>
    intro _
    rfl
  | cons f fs ih =>
    intro hall
    have hf : f.length = F := hall f (List.mem_cons_self _ _)
    have hall' : ∀ g ∈ fs, g.length = F := fun g hg => hall g (List.mem_cons_of_mem _ hg)
    rw [List.map_cons, List.flatten_cons, List.map_append]
    show readFramesNoSync F (fs.length + 1) _ _ = _
    rw [readFramesNoSync]
    rw [read_frame_no_sync_exact F P hF hP f hf]
    simp only []
    rw [ih hall']
    rfl

/-! Marker sequence lemmas -/

theorem markersOf_append (ps qs : List Payload) :
    markersOf (ps ++ qs) = markersOf ps ++ markersOf qs := by
  simp [markersOf]

theorem markersOf_map_none (ds : List (List Byte)) :
    markersOf (ds.map (fun d => ⟨none, d⟩)) = [] := by
  induction ds with
  | nil => rfl
  | cons d ds ih =>
    simp only [List.map_cons, markersOf, List.filterMap_cons] at *
    exact ih

theorem markersOf_writeFrame (P s : Nat) (b : Bool) (j : Nat) (f : List Byte) :
    markersOf (writeFrameWithSync P s b j f) = if b then [j] else [] := by
  cases b with
  | false =>
    rw [writeFrameWithSync, if_neg (by simp), if_neg (by simp)]
    exact markersOf_map_none _
  | true =>
    rw [writeFrameWithSync, if_pos (by simp), if_pos (by simp)]
    simp only [markersOf, List.filterMap_cons]
    have := markersOf_map_none (splitPayloads P (f.drop (P - s)))
    rw [markersOf] at this
    rw [this]

theorem markersOf_writeAll (P s fps : Nat) :
    ∀ (fs : List (List Byte)) (i j : Nat),
      markersOf (eth_stream__write_all_with_sync P s fps i j fs) =
        (List.range' j (markedCount fps i fs.length)).map (· % 2 ^ 32) := by
  intro fs
  induction fs with
  | nil =>
    intro i j
    rfl
  | cons f fs ih =>
    intro i j
    rw [eth_stream__write_all_with_sync]
    show _ = (List.range' j (markedCount fps i (fs.length + 1))).map (· % 2 ^ 32)
    rw [markedCount]
    by_cases hi : i % fps = 0
    · rw [if_pos hi, if_pos hi, markersOf_append, markersOf_writeFrame,
        if_pos rfl, ih (i + 1) (j + 1)]
      rw [Nat.add_comm 1 (markedCount fps (i + 1) fs.length), List.range'_succ]
      simp
    · rw [if_neg hi, if_neg hi, markersOf_append, markersOf_writeFrame,
        if_neg (by simp), ih (i + 1) j]
      simp

theorem framePayloads_flatten (P s fps : Nat) :
    ∀ (fs : List (List Byte)) (i j : Nat),
      (framePayloads P s fps i j fs).flatten =
        eth_stream__write_all_with_sync P s fps i j fs := by
  intro fs
  induction fs with
  | nil => intro i j; rfl
  | cons f fs ih =>
    intro i j
    rw [framePayloads, eth_stream__write_all_with_sync]
    by_cases hi : i % fps = 0
    · rw [if_pos hi, if_pos hi, List.flatten_cons, ih]
    · rw [if_neg hi, if_neg hi, List.flatten_cons, ih]

theorem framePayloads_length (P s fps : Nat) :
    ∀ (fs : List (List Byte)) (i j : Nat),
      (framePayloads P s fps i j fs).length = fs.length := by
  intro fs
  induction fs with
  | nil => intro i j; rfl
  | cons f fs ih =>
    intro i j
    rw [framePayloads]
    by_cases hi : i % fps = 0
    · rw [if_pos hi, List.length_cons, ih, List.length_cons]
    · rw [if_neg hi, List.length_cons, ih, List.length_cons]

theorem framePayloads_map_markers (P s fps : Nat) :
    ∀ (fs : List (List Byte)) (i j : Nat),
      (framePayloads P s fps i j fs).map markersOf =
        (List.range fs.length).map
          (fun k => if (i + k) % fps = 0 then [(j + markedCount fps i k) % 2 ^ 32] else []) := by
  intro fs
  induction fs with
  | nil => intro i j; rfl
  | cons f fs ih =>
    intro i j
    rw [framePayloads]
    show _ = (List.range (fs.length + 1)).map _
    rw [List.range_succ_eq_map, List.map_cons, List.map_map]
    by_cases hi : i % fps = 0
    · rw [if_pos hi, List.map_cons, markersOf_writeFrame, if_pos rfl,
        ih (i + 1) (j + 1)]
      congr 1
      · rw [Nat.add_zero, if_pos hi, markedCount]
        simp
      · apply List.map_congr_left
        intro k _
        simp only [Function.comp_apply]
        have h1 : i + Nat.succ k = i + 1 + k := by omega
        have h2 : markedCount fps i (Nat.succ k) = 1 + markedCount fps (i + 1) k := by
          rw [markedCount, if_pos hi]
        rw [h1, h2]
        congr 2
        omega
    · rw [if_neg hi, List.map_cons, markersOf_writeFrame, if_neg (by simp),
        ih (i + 1) j]
      congr 1
      · rw [Nat.add_zero, if_neg hi]
      · apply List.map_congr_left
        intro k _
        simp only [Function.comp_apply]
        have h1 : i + Nat.succ k = i + 1 + k := by omega
        have h2 : markedCount fps i (Nat.succ k) = markedCount fps (i + 1) k := by
          rw [markedCount, if_neg hi]
          omega
        rw [h1, h2]

theorem markedCount_two (n : Nat) :
    ∀ i, markedCount 2 i n = (n + (if i % 2 = 0 then 1 else 0)) / 2 := by
  induction n with
  | zero =>
    intro i
    rw [markedCount]
    split <;> omega
  | succ n ih =>
    intro i
    rw [markedCount, ih (i + 1)]
    by_cases hi : i % 2 = 0
    · rw [if_pos hi, if_neg (show ¬(i + 1) % 2 = 0 by omega)]
      omega
    · rw [if_neg hi, if_pos (show (i + 1) % 2 = 0 by omega)]
      omega

/-! Resynchronization lemmas -/

theorem huntSync_skips (F ls : Nat) :
    ∀ (junk : List Payload) (evs : List Event), (∀ q ∈ junk, q.marker = none) →
      huntSync F ls (junk.map Event.pkt ++ evs) = huntSync F ls evs := by
  intro junk
  induction junk with
  | nil => intro evs _; rfl
  | cons q junk ih =>
    intro evs hnone
    have hq : q.marker = none := hnone q (List.mem_cons_self _ _)
    rw [List.map_cons, List.cons_append, huntSync, hq]
    exact ih evs (fun r hr => hnone r (List.mem_cons_of_mem _ hr))

theorem huntSync_marker (F ls : Nat) (p : Payload) (i : Nat) (hi : p.marker = some i)
    (evs : List Event) :
    huntSync F ls (Event.pkt p :: evs) = readLoopSync F ls [] (Event.pkt p :: evs) := by
  rw [huntSync, readLoopSync, hi]
  simp [updateSyncIndex, hi]

/-! Leftover-bound lemmas -/

theorem readLoopSync_leftover (F maxP : Nat) (_hF : 0 < F) (hmaxP : 0 < maxP) :
    ∀ (evs : List Event) (ls : Nat) (acc : List Byte),
      acc.length < F →
      (∀ p, Event.pkt p ∈ evs → p.data.length ≤ maxP) →
      (readLoopSync F ls acc evs).2.1.leftover.length < maxP := by
  intro evs
  induction evs with
  | nil =>
    intro ls acc hacc hall
    simpa [readLoopSync] using hmaxP
  | cons e rest ih =>
    intro ls acc hacc hall
    match e with
    | Event.timeout =>
      rw [readLoopSync]
      split <;> simpa using hmaxP
    | Event.pkt p =>
      have hp : p.data.length ≤ maxP := hall p (List.mem_cons_self _ _)
      rw [readLoopSync]
      by_cases hfull : F ≤ (acc ++ p.data).length
      · rw [if_pos hfull]
        simp only [List.length_drop, List.length_append]
        simp only [List.length_append] at hfull
        omega
      · rw [if_neg hfull]
        apply ih
        · simp only [List.length_append] at hfull ⊢
          omega
        · intro r hr
          exact hall r (List.mem_cons_of_mem _ hr)

theorem huntSync_leftover (F maxP : Nat) (hF : 0 < F) (hmaxP : 0 < maxP) :
    ∀ (evs : List Event) (ls : Nat),
      (∀ p, Event.pkt p ∈ evs → p.data.length ≤ maxP) →
      (huntSync F ls evs).2.1.leftover.length < maxP := by
  intro evs
  induction evs with
  | nil =>
    intro ls hall
    simpa [huntSync] using hmaxP
  | cons e rest ih =>
    intro ls hall
    match e with
    | Event.timeout =>
      simpa [huntSync] using hmaxP
    | Event.pkt p =>
      have hp : p.data.length ≤ maxP := hall p (List.mem_cons_self _ _)
      have hall' : ∀ r, Event.pkt r ∈ rest → r.data.length ≤ maxP :=
        fun r hr => hall r (List.mem_cons_of_mem _ hr)
      cases hm : p.marker with
      | none =>
        rw [huntSync]
        simp only [hm]
        exact ih ls hall'
      | some i =>
        rw [huntSync]
        simp only [hm]
        by_cases hfull : F ≤ p.data.length
        · rw [if_pos hfull]
          simp only [List.length_drop]
          omega
        · rw [if_neg hfull]
          apply readLoopSync_leftover F maxP hF hmaxP rest i p.data (by omega) hall'

theorem readLoopNoSync_leftover (F maxP : Nat) (_hF : 0 < F) (hmaxP : 0 < maxP) :
    ∀ (evs : List Event) (acc : List Byte),
      acc.length < F →
      (∀ p, Event.pkt p ∈ evs → p.data.length ≤ maxP) →
      (readLoopNoSync F acc evs).2.1.length < maxP := by
  intro evs
  induction evs with
  | nil =>
    intro acc hacc hall
    simpa [readLoopNoSync] using hmaxP
  | cons e rest ih =>
    intro acc hacc hall
    match e with
    | Event.timeout =>
      simpa [readLoopNoSync] using hmaxP
    | Event.pkt p =>
      have hp : p.data.length ≤ maxP := hall p (List.mem_cons_self _ _)
      rw [readLoopNoSync]
      by_cases hfull : F ≤ (acc ++ p.data).length
      · rw [if_pos hfull]
        simp only [List.length_drop, List.length_append]
        simp only [List.length_append] at hfull
        omega
      · rw [if_neg hfull]
        apply ih
        · simp only [List.length_append] at hfull ⊢
          omega
        · intro r hr
          exact hall r (List.mem_cons_of_mem _ hr)

/-! Datagram size lemmas -/

theorem datagramSize_writeFrame (P s : Nat) (hs : s ≤ P) (b : Bool) (j : Nat)
    (f : List Byte) : ∀ p ∈ writeFrameWithSync P s b j f, datagramSize s p ≤ P := by
  intro p hp
  cases b with
  | false =>
    rw [writeFrameWithSync, if_neg (by simp)] at hp
    obtain ⟨d, hd, rfl⟩ := List.mem_map.mp hp
    simp only [datagramSize, Option.isSome_none, Bool.false_eq_true, if_false]
    have := splitPayloads_mem_length P f d hd
    omega
  | true =>
    rw [writeFrameWithSync, if_pos (by simp)] at hp
    rcases List.mem_cons.mp hp with hp | hp
    · subst hp
      simp only [datagramSize, Option.isSome_some, if_pos, List.length_take]
      have : min (P - s) f.length ≤ P - s := Nat.min_le_left _ _
      omega
    · obtain ⟨d, hd, rfl⟩ := List.mem_map.mp hp
      simp only [datagramSize, Option.isSome_none, Bool.false_eq_true, if_false]
      have := splitPayloads_mem_length P (f.drop (P - s)) d hd
      omega

theorem datagramSize_writeAll (P s fps : Nat) (hs : s ≤ P) :
    ∀ (fs : List (List Byte)) (i j : Nat),
      ∀ p ∈ eth_stream__write_all_with_sync P s fps i j fs, datagramSize s p ≤ P := by
  intro fs
  induction fs with
  | nil =>
    intro i j p hp
    simp [eth_stream__write_all_with_sync] at hp
  | cons f fs ih =>
    intro i j p hp
    rw [eth_stream__write_all_with_sync] at hp
    by_cases hi : i % fps = 0
    · rw [if_pos hi] at hp
      rcases List.mem_append.mp hp with hp | hp
      · exact datagramSize_writeFrame P s hs true _ f p hp
      · exact ih (i + 1) (j + 1) p hp
    · rw [if_neg hi] at hp
      rcases List.mem_append.mp hp with hp | hp
      · exact datagramSize_writeFrame P s hs false _ f p hp
      · exact ih (i + 1) j p hp

theorem datagramSize_write_no_sync (P s : Nat) (frame : List Byte) :
    ∀ p ∈ eth_stream__write_all_no_sync P frame, datagramSize s p ≤ P := by
  intro p hp
  rw [eth_stream__write_all_no_sync] at hp
  obtain ⟨d, hd, rfl⟩ := List.mem_map.mp hp
  simp only [datagramSize, Option.isSome_none, Bool.false_eq_true, if_false]
  have := splitPayloads_mem_length P frame d hd
  omega

/-! Filesystem loop characterization -/

theorem files_in_dir_loop_eq (d : String) :
    ∀ (es : List dirent) (acc : List String),
      files_in_dir_loop d es acc =
        acc ++ (es.filter (fun e => e.d_type = dirent_type.DT_REG)).map
          (fun e => d ++ e.d_name) := by
  intro es
  induction es with
  | nil =>
    intro acc
    simp [files_in_dir_loop]
  | cons e es ih =>
    intro acc
    rw [files_in_dir_loop]
    by_cases he : e.d_type = dirent_type.DT_REG
    · rw [if_neg (by simp [he])]
      rw [ih]
      rw [List.filter_cons_of_pos (by simp [he]), List.map_cons]
      simp
    · rw [if_pos (by simp [he])]
      rw [ih]
      rw [List.filter_cons_of_neg (by simp [he])]

/-- C9: `Filesystem::get_files_in_dir_flat` returns exactly the entries of
type regular file, each path being the directory path - with a trailing
separator appended only when not already present - concatenated with the
entry name, in directory order. -/
theorem get_files_in_dir_flat_spec (dir_path : String) (entries : List dirent) :
    get_files_in_dir_flat dir_path entries =
      (entries.filter (fun e => e.d_type = dirent_type.DT_REG)).map
        (fun e =>
          (if has_suffix dir_path Filesystem.SEPARATOR then dir_path
           else dir_path ++ Filesystem.SEPARATOR) ++ e.d_name) := by
  rw [get_files_in_dir_flat]
  rw [files_in_dir_loop_eq]
  simp

/-- C10: `Filesystem::create_directory` succeeds exactly when `mkdir`
succeeded or failed with `EEXIST`, fails with
`HAILO_FILE_OPERATION_FAILURE` exactly on any other `mkdir` failure, and
hence calling it twice on the same path succeeds both times. -/
theorem create_directory_eexist_success :
    (∀ r : mkdir_result, create_directory r = hailo_status.HAILO_SUCCESS ↔
        (r = mkdir_result.ok ∨ r = mkdir_result.error EEXIST))
    ∧ (∀ r : mkdir_result,
        create_directory r = hailo_status.HAILO_FILE_OPERATION_FAILURE ↔
        (∃ e, e ≠ EEXIST ∧ r = mkdir_result.error e))
    ∧ (∀ (dirs : List String) (path : String),
        (create_directory_on dirs path).1 = hailo_status.HAILO_SUCCESS
        ∧ (create_directory_on (create_directory_on dirs path).2 path).1 =
            hailo_status.HAILO_SUCCESS) := by
  refine ⟨?_, ?_, ?_⟩
  · intro r
    match r with
    | mkdir_result.ok => simp [create_directory]
    | mkdir_result.error e =>
      by_cases he : e = EEXIST
      · subst he
        simp [create_directory]
      · simp [create_directory, he]
  · intro r
    match r with
    | mkdir_result.ok => simp [create_directory]
    | mkdir_result.error e =>
      by_cases he : e = EEXIST
      · subst he
        simp [create_directory]
      · simp [create_directory, he]
  · intro dirs path
    by_cases hmem : path ∈ dirs
    · rw [create_directory_on, create_directory_on, mkdirFs, if_pos hmem]
      simp only []
      rw [mkdirFs, if_pos hmem]
      constructor
      · simp [create_directory, EEXIST]
      · simp [create_directory, EEXIST]
    · rw [create_directory_on, create_directory_on, mkdirFs, if_neg hmem]
      simp only []
      rw [mkdirFs, if_pos (List.mem_cons_self path dirs)]
      constructor
      · simp [create_directory]
      · simp [create_directory, EEXIST]

/-- C5: for both Ethernet stream directions `clear_abort` returns
`HAILO_SUCCESS` from every state while changing nothing, so after `abort`
followed by `clear_abort` the stream is still aborted. -/
theorem clear_abort_no_op (st : EthStreamState) :
    EthernetInputStream.clear_abort st = (hailo_status.HAILO_SUCCESS, st)
    ∧ EthernetOutputStream.clear_abort st = (hailo_status.HAILO_SUCCESS, st)
    ∧ (EthernetInputStream.clear_abort (EthernetInputStream.abort st).2).2.is_aborted = true
    ∧ (EthernetOutputStream.clear_abort (EthernetOutputStream.abort st).2).2.is_aborted = true :=
  ⟨rfl, rfl, rfl, rfl⟩

/-- C6: the receive-side sync sentinel is the maximum unsigned 32-bit
value, its successor modulo 2^32 is 0, and the first marker the sender
emits after activation carries exactly that successor - so index 0 is in
sequence. -/
theorem sync_index_sentinel :
    initOutState.last_seen_sync_index = 2 ^ 32 - 1
    ∧ (initOutState.last_seen_sync_index + 1) % 2 ^ 32 = 0
    ∧ ∀ (P s fps : Nat) (f : List Byte) (fs : List (List Byte)),
        (markersOf (eth_stream__write_all_with_sync P s fps 0 0 (f :: fs))).head? =
          some ((initOutState.last_seen_sync_index + 1) % 2 ^ 32) := by
  refine ⟨rfl, by norm_num [initOutState], ?_⟩
  intro P s fps f fs
  rw [eth_stream__write_all_with_sync, if_pos (Nat.zero_mod fps), markersOf_append,
    markersOf_writeFrame, if_pos rfl]
  simp [initOutState]

/-- C1: over a lossless in-order channel, writing a sequence of `F`-byte
frames and then reading them back yields exactly the original frames,
both with sync disabled and with sync enabled (markers stripped). -/
theorem eth_roundtrip_write_read (F P s fps : Nat) (fs : List (List Byte))
    (hF : 0 < F) (hP : 0 < P) (hs : s < P) (hfs : ∀ f ∈ fs, f.length = F) :
    readFramesNoSync F fs.length []
        ((fs.map (eth_stream__write_all_no_sync P)).flatten.map Event.pkt) = some fs
    ∧ readFramesWithSync F fs.length initOutState
        ((eth_stream__write_all_with_sync P s fps 0 0 fs).map Event.pkt) = some fs := by
  constructor
  · exact readFrames_write_no_sync F P hF hP fs hfs
  · exact readFrames_writeAll F P s fps hF hP hs fs 0 0 (2 ^ 32 - 1) hfs

/-- Witness for C1 at F = 2, P = 2, s = 1, fps = 2 and two concrete
frames. -/
theorem eth_roundtrip_write_read_witness :
    ((0 : Nat) < 2 ∧ (0 : Nat) < 2 ∧ (1 : Nat) < 2
      ∧ (∀ f ∈ ([[1, 2], [3, 4]] : List (List Byte)), f.length = 2))
    ∧ (readFramesNoSync 2 2 []
        ((([[1, 2], [3, 4]] : List (List Byte)).map
          (eth_stream__write_all_no_sync 2)).flatten.map Event.pkt) = some [[1, 2], [3, 4]]
      ∧ readFramesWithSync 2 2 initOutState
        ((eth_stream__write_all_with_sync 2 1 2 0 0 [[1, 2], [3, 4]]).map Event.pkt) =
          some [[1, 2], [3, 4]]) :=
  ⟨⟨by decide, by decide, by decide, by decide⟩,
    eth_roundtrip_write_read 2 2 1 2 [[1, 2], [3, 4]]
      (by decide) (by decide) (by decide) (by decide)⟩

/-- C2: with sync disabled, one `write` sends exactly
`⌈frame_size / max_payload_size⌉` payloads in order, all of size `P`
except the final remainder; in particular `P = 1472`, `frame_size = 4000`
gives payload sizes 1472, 1472, 1056. -/
theorem write_no_sync_payload_sizes (P : Nat) (hP : 0 < P) (frame : List Byte) :
    ((eth_stream__write_all_no_sync P frame).map (fun p => p.data.length)).length
        = (frame.length + P - 1) / P
    ∧ (∀ i, i + 1 < ((eth_stream__write_all_no_sync P frame).map
          (fun p => p.data.length)).length →
        ((eth_stream__write_all_no_sync P frame).map (fun p => p.data.length)).getD i 0 = P)
    ∧ ((eth_stream__write_all_no_sync P frame).map (fun p => p.data.length)).sum
        = frame.length
    ∧ (∀ d ∈ (eth_stream__write_all_no_sync P frame).map (fun p => p.data.length),
        0 < d ∧ d ≤ P)
    ∧ (P = 1472 → frame.length = 4000 →
        (eth_stream__write_all_no_sync P frame).map (fun p => p.data.length)
          = [1472, 1472, 1056]) := by
  have key : (eth_stream__write_all_no_sync P frame).map (fun p => p.data.length)
      = payloadSizes P frame.length := by
    rw [eth_stream__write_all_no_sync, List.map_map]
    have hcomp : ((fun p : Payload => p.data.length) ∘ fun d => (⟨none, d⟩ : Payload))
        = List.length := rfl
    rw [hcomp, splitPayloads_map_length]
  rw [key]
  refine ⟨payloadSizes_length P hP frame.length, payloadSizes_getD P frame.length,
    payloadSizes_sum P hP frame.length, payloadSizes_mem_bounds P frame.length, ?_⟩
  intro hP' hframe
  subst hP'
  rw [hframe]
  rw [payloadSizes, payloadSizes, payloadSizes, payloadSizes]
  norm_num

/-- Witness for C2 at P = 1472 on a 4000-byte frame. -/
theorem write_no_sync_payload_sizes_witness :
    (0 : Nat) < 1472
    ∧ (eth_stream__write_all_no_sync 1472 (List.replicate 4000 (0 : Byte))).map
        (fun p => p.data.length) = [1472, 1472, 1056] :=
  ⟨by decide,
    (write_no_sync_payload_sizes 1472 (by decide) (List.replicate 4000 (0 : Byte))).2.2.2.2
      rfl (by rw [List.length_replicate])⟩

/-- C7: the token bucket's burst capacity is one MTU
(`MAX_UDP_PAYLOAD_SIZE`), and since every emitted datagram is capped at
`max_payload_size ≤ MAX_UDP_PAYLOAD_SIZE`, no single `throttle` call
debits more than one MTU - on either write path. -/
theorem token_bucket_debit_bound :
    TokenBucketEthernetInputStream.BURST_SIZE = MAX_UDP_PAYLOAD_SIZE
    ∧ TokenBucketEthernetInputStream.MAX_CONSUME_SIZE = MAX_UDP_PAYLOAD_SIZE
    ∧ (∀ (tb : DynamicTokenBucket) (P s : Nat) (frame : List Byte) (p : Payload),
        P ≤ MAX_UDP_PAYLOAD_SIZE → p ∈ eth_stream__write_all_no_sync P frame →
        (tb.throttle (datagramSize s p)).1 ≤ MAX_UDP_PAYLOAD_SIZE)
    ∧ (∀ (tb : DynamicTokenBucket) (P s fps i j : Nat) (fs : List (List Byte)) (p : Payload),
        P ≤ MAX_UDP_PAYLOAD_SIZE → s ≤ P →
        p ∈ eth_stream__write_all_with_sync P s fps i j fs →
        (tb.throttle (datagramSize s p)).1 ≤ MAX_UDP_PAYLOAD_SIZE) := by
  refine ⟨rfl, rfl, ?_, ?_⟩
  · intro tb P s frame p hP hp
    have h := datagramSize_write_no_sync P s frame p hp
    exact le_trans h hP
  · intro tb P s fps i j fs p hP hs hp
    have h := datagramSize_writeAll P s fps hs fs i j p hp
    exact le_trans h hP

/-- Witness for C7 on a concrete no-sync payload. -/
theorem token_bucket_debit_bound_witness :
    (2 : Nat) ≤ MAX_UDP_PAYLOAD_SIZE
    ∧ (Payload.mk none [1, 2]) ∈ eth_stream__write_all_no_sync 2 [1, 2, 3]
    ∧ ((DynamicTokenBucket.mk 0).throttle
        (datagramSize 0 (Payload.mk none [1, 2]))).1 ≤ MAX_UDP_PAYLOAD_SIZE :=
  ⟨by decide,
   by rw [eth_stream__write_all_no_sync, splitPayloads, splitPayloads, splitPayloads]; simp,
   token_bucket_debit_bound.2.2.1 (DynamicTokenBucket.mk 0) 2 0 [1, 2, 3]
     (Payload.mk none [1, 2]) (by decide)
     (by rw [eth_stream__write_all_no_sync, splitPayloads, splitPayloads, splitPayloads]; simp)⟩

/-- C8: after any completed or failed `read` call, the leftover carried
between reads is strictly smaller than one maximum payload, for the
sync-enabled and the sync-free read paths alike, provided every received
datagram is at most one maximum payload. -/
theorem leftover_invariant (F maxP : Nat) (evs : List Event) (hF : 0 < F)
    (hall : ∀ p, Event.pkt p ∈ evs → p.data.length ≤ maxP) :
    (∀ st : OutState, st.leftover.length < maxP →
      (read_all_with_sync F st evs).2.1.leftover.length < maxP)
    ∧ (∀ leftover : List Byte, leftover.length < maxP →
      (read_all_no_sync F leftover evs).2.1.length < maxP) := by
  constructor
  · intro st hst
    have hmaxP : 0 < maxP := by omega
    rw [read_all_with_sync]
    by_cases ht : st.encountered_timeout
    · rw [if_pos ht]
      exact huntSync_leftover F maxP hF hmaxP evs _ hall
    · rw [if_neg ht]
      by_cases hlen : F ≤ st.leftover.length
      · rw [if_pos hlen]
        simp only [List.length_drop]
        omega
      · rw [if_neg hlen]
        exact readLoopSync_leftover F maxP hF hmaxP evs _ _ (by omega) hall
  · intro lo hlo
    have hmaxP : 0 < maxP := by omega
    rw [read_all_no_sync]
    by_cases hlen : F ≤ lo.length
    · rw [if_pos hlen]
      simp only [List.length_drop]
      omega
    · rw [if_neg hlen]
      exact readLoopNoSync_leftover F maxP hF hmaxP evs _ (by omega) hall

/-- Witness for C8 on a concrete one-datagram channel. -/
theorem leftover_invariant_witness :
    (0 : Nat) < 2
    ∧ (∀ p : Payload, Event.pkt p ∈ [Event.pkt (Payload.mk none [1, 2, 3])] →
        p.data.length ≤ 3)
    ∧ initOutState.leftover.length < 3
    ∧ (read_all_with_sync 2 initOutState
        [Event.pkt (Payload.mk none [1, 2, 3])]).2.1.leftover.length < 3 :=
  ⟨by decide,
   by
     intro p hp
     simp at hp
     subst hp
     decide,
   by decide,
   (leftover_invariant 2 3 [Event.pkt (Payload.mk none [1, 2, 3])] (by decide)
     (by
       intro p hp
       simp at hp
       subst hp
       decide)).1 initOutState (by decide)⟩

/-- After a timeout, a marked frame reaching the hunting receiver is
reassembled exactly as in the normal path. -/
theorem hunt_read_frame (F P s : Nat) (hF : 0 < F) (hP : 0 < P) (hs : s < P)
    (j ls : Nat) (f : List Byte) (hf : f.length = F) (evs : List Event) :
    huntSync F ls ((writeFrameWithSync P s true j f).map Event.pkt ++ evs) =
      (some f, OutState.mk [] (lastAfter ls (writeFrameWithSync P s true j f)) false, evs) := by
  have hw : writeFrameWithSync P s true j f =
      Payload.mk (some j) (f.take (P - s)) ::
        (splitPayloads P (f.drop (P - s))).map (fun d => ⟨none, d⟩) := by
    rw [writeFrameWithSync, if_pos (by simp)]
  rw [hw, List.map_cons, List.cons_append]
  rw [huntSync_marker F ls _ j rfl]
  rw [← List.cons_append, ← List.map_cons, ← hw]
  rw [readLoopSync_exact F (writeFrameWithSync P s true j f) evs ls []
    (writeFrame_data_ne_nil P s hP hs true j f
      (by intro hc; rw [hc] at hf; simp at hf; omega))
    (by simpa using hF)
    (by rw [dataJoin_writeFrame P s hP]; simpa using hf)]
  rw [dataJoin_writeFrame P s hP]
  simp

/-- C4: with sync enabled, a receive timeout while a frame is partially
assembled makes `read` return no frame, set `encountered_timeout` and
discard the partial bytes (the leftover is cleared, so they are never
delivered); a subsequent read scans to the next sync marker, and from the
first observed marker on all subsequent frames decode correctly. -/
theorem timeout_resync_recovery :
    (∀ (F : Nat) (st : OutState) (p : Payload) (rest : List Event),
      st.encountered_timeout = false →
      st.leftover ++ p.data ≠ [] →
      (st.leftover ++ p.data).length < F →
      read_all_with_sync F st (Event.pkt p :: Event.timeout :: rest) =
        (none, OutState.mk [] (updateSyncIndex st.last_seen_sync_index p) true, rest))
    ∧ (∀ (F P s fps ls : Nat) (fs : List (List Byte)) (junk : List Payload),
        0 < F → 0 < P → s < P → (∀ f ∈ fs, f.length = F) →
        (∀ q ∈ junk, q.marker = none) →
        readFramesWithSync F fs.length (OutState.mk [] ls true)
          (junk.map Event.pkt ++
            (eth_stream__write_all_with_sync P s fps 0 0 fs).map Event.pkt) = some fs) := by
  constructor
  · intro F st p rest hflag hne hlen
    rw [read_all_with_sync, hflag]
    simp only [Bool.false_eq_true, if_false]
    have hlo : st.leftover.length < F := by
      simp only [List.length_append] at hlen
      omega
    rw [if_neg (by omega)]
    rw [readLoopSync]
    rw [if_neg (not_le.mpr hlen)]
    rw [readLoopSync]
    rw [if_neg (by
      intro hempty
      exact hne (List.isEmpty_iff.mp hempty))]
  · intro F P s fps ls fs junk hF hP hs hall hnone
    match fs with
    | [] => rfl
    | f :: fs' =>
      have hf : f.length = F := hall f (List.mem_cons_self _ _)
      have hall' : ∀ g ∈ fs', g.length = F :=
        fun g hg => hall g (List.mem_cons_of_mem _ hg)
      show readFramesWithSync F (fs'.length + 1) _ _ = _
      rw [readFramesWithSync, read_all_with_sync, if_pos rfl]
      rw [huntSync_skips F ls junk _ hnone]
      rw [eth_stream__write_all_with_sync, if_pos (Nat.zero_mod fps), List.map_append]
      rw [hunt_read_frame F P s hF hP hs (0 % 2 ^ 32) ls f hf]
      simp only []
      rw [readFrames_writeAll F P s fps hF hP hs fs' 1 1 _ hall']
      rfl

/-- Witness for C4: a concrete mid-frame timeout, and a concrete
resynchronization across one junk datagram. -/
theorem timeout_resync_recovery_witness :
    (initOutState.encountered_timeout = false
      ∧ initOutState.leftover ++ (Payload.mk none [5]).data ≠ []
      ∧ (initOutState.leftover ++ (Payload.mk none [5]).data).length < 3
      ∧ read_all_with_sync 3 initOutState
          [Event.pkt (Payload.mk none [5]), Event.timeout] =
        (none,
          OutState.mk []
            (updateSyncIndex initOutState.last_seen_sync_index (Payload.mk none [5])) true,
          []))
    ∧ ((0 : Nat) < 1 ∧ (0 : Nat) < 1
      ∧ (∀ f ∈ ([[9]] : List (List Byte)), f.length = 1)
      ∧ (∀ q ∈ [Payload.mk none [4]], q.marker = none)
      ∧ readFramesWithSync 1 1 (OutState.mk [] 5 true)
          ([Payload.mk none [4]].map Event.pkt ++
            (eth_stream__write_all_with_sync 1 0 1 0 0 [[9]]).map Event.pkt) =
        some [[9]]) :=
  ⟨⟨rfl, by decide, by decide,
    timeout_resync_recovery.1 3 initOutState (Payload.mk none [5]) []
      rfl (by decide) (by decide)⟩,
   ⟨by decide, by decide, by decide, by decide,
    timeout_resync_recovery.2 1 1 0 1 5 [[9]] [Payload.mk none [4]]
      (by decide) (by decide) (by decide) (by decide) (by decide)⟩⟩

/-- C3: with sync enabled the marker indices on the wire are
0, 1, 2, ... reduced modulo 2^32, so consecutive markers differ by
exactly 1 modulo 2^32; with frames_per_sync = 2 the marker sits on the
payloads of frames 0, 2, 4, ... carrying indices 0, 1, 2, ... in order;
and a marker payload's data portion shrinks by sync_size bytes. -/
theorem sync_marker_schedule (P s : Nat) (fs : List (List Byte)) :
    (∀ fps : Nat,
      markersOf (eth_stream__write_all_with_sync P s fps 0 0 fs) =
        (List.range (markedCount fps 0 fs.length)).map (· % 2 ^ 32))
    ∧ (∀ fps k : Nat,
        k + 1 < (markersOf (eth_stream__write_all_with_sync P s fps 0 0 fs)).length →
        (markersOf (eth_stream__write_all_with_sync P s fps 0 0 fs)).getD (k + 1) 0 =
          ((markersOf (eth_stream__write_all_with_sync P s fps 0 0 fs)).getD k 0 + 1)
            % 2 ^ 32)
    ∧ (framePayloads P s 2 0 0 fs).length = fs.length
    ∧ (framePayloads P s 2 0 0 fs).flatten = eth_stream__write_all_with_sync P s 2 0 0 fs
    ∧ (framePayloads P s 2 0 0 fs).map markersOf =
        (List.range fs.length).map
          (fun k => if k % 2 = 0 then [(k / 2) % 2 ^ 32] else [])
    ∧ (∀ (j : Nat) (f : List Byte), 0 < P → P ≤ f.length →
        ((writeFrameWithSync P s true j f).getD 0 (Payload.mk none [])).data.length = P - s
        ∧ ((writeFrameWithSync P s false j f).getD 0 (Payload.mk none [])).data.length = P) := by
  refine ⟨?_, ?_, framePayloads_length P s 2 fs 0 0, framePayloads_flatten P s 2 fs 0 0,
    ?_, ?_⟩
  · intro fps
    rw [markersOf_writeAll P s fps fs 0 0, List.range_eq_range']
  · intro fps k hk
    rw [markersOf_writeAll P s fps fs 0 0] at hk ⊢
    simp only [List.length_map, List.length_range'] at hk
    rw [List.getD_eq_getElem _ _ (by simp; omega), List.getD_eq_getElem _ _ (by simp; omega)]
    simp only [List.getElem_map, List.getElem_range']
    have h32 : (2 : Nat) ^ 32 = 4294967296 := by norm_num
    rw [h32]
    omega
  · rw [framePayloads_map_markers P s 2 fs 0 0]
    apply List.map_congr_left
    intro k _
    simp only [Nat.zero_add]
    rw [markedCount_two k 0]
    by_cases hk2 : k % 2 = 0
    · rw [if_pos hk2, if_pos hk2]
      have hone : (if (0 : Nat) % 2 = 0 then 1 else 0) = 1 := by norm_num
      have hdiv : (k + if (0 : Nat) % 2 = 0 then 1 else 0) / 2 = k / 2 := by
        rw [hone]
        omega
      rw [hdiv]
    · rw [if_neg hk2, if_neg hk2]
  · intro j f hP hPf
    constructor
    · rw [writeFrameWithSync, if_pos (by simp)]
      simp only [List.getD_cons_zero, List.length_take]
      omega
    · rw [writeFrameWithSync, if_neg (by simp)]
      rw [splitPayloads, dif_neg (by
        push_neg
        constructor
        · omega
        · intro hc
          rw [hc] at hPf
          simp at hPf
          omega)]
      simp only [List.map_cons, List.getD_cons_zero, List.length_take]
      omega

/-- Witness for C3: the marker-difference property on a concrete
three-frame stream and the data-portion shrink at P = 3, s = 1. -/
theorem sync_marker_schedule_witness :
    ((0 : Nat) + 1 <
        (markersOf (eth_stream__write_all_with_sync 3 1 1 0 0
          [[7, 7, 7], [7, 7, 7], [7, 7, 7]])).length
      ∧ (markersOf (eth_stream__write_all_with_sync 3 1 1 0 0
          [[7, 7, 7], [7, 7, 7], [7, 7, 7]])).getD (0 + 1) 0 =
        ((markersOf (eth_stream__write_all_with_sync 3 1 1 0 0
          [[7, 7, 7], [7, 7, 7], [7, 7, 7]])).getD 0 0 + 1) % 2 ^ 32)
    ∧ ((0 : Nat) < 3 ∧ (3 : Nat) ≤ ([7, 7, 7] : List Byte).length
      ∧ ((writeFrameWithSync 3 1 true 0 [7, 7, 7]).getD 0
          (Payload.mk none [])).data.length = 3 - 1
      ∧ ((writeFrameWithSync 3 1 false 0 [7, 7, 7]).getD 0
          (Payload.mk none [])).data.length = 3) :=
  ⟨⟨by simp [eth_stream__write_all_with_sync, writeFrameWithSync, splitPayloads, markersOf],
    (sync_marker_schedule 3 1 [[7, 7, 7], [7, 7, 7], [7, 7, 7]]).2.1 1 0
      (by simp [eth_stream__write_all_with_sync, writeFrameWithSync, splitPayloads,
        markersOf])⟩,
   ⟨by decide, by decide,
    ((sync_marker_schedule 3 1 []).2.2.2.2.2 0 [7, 7, 7] (by decide) (by decide)).1,
    ((sync_marker_schedule 3 1 []).2.2.2.2.2 0 [7, 7, 7] (by decide) (by decide)).2⟩⟩

end hailort
